import Mathlib

/-
Verification of the plexos-coad repository core.

Part 1 embeds `compress_interval` from src/coad/compress_interval.pyx.
The Python function receives a list of interval-data rows
`(category_id, time_index, value)`, removes the first row from the
caller's list with `pop(0)`, seeds the run list with
`[[row[0], 1, row[1], row[2]]]` (note the literal `1` as the first run's
start index), then scans the remaining rows: whenever the value changes,
it closes the current run by overwriting its end index with the time
index of the previously seen row and opens a fresh run; after the scan
it closes the final run with the last seen time index.

The embedding returns, besides the computed run list, the final state of
the caller's argument list (the list after `pop(0)`), so that the
mutation of the argument is part of the modelled behaviour.  The failure
of `pop(0)` on an empty list is modelled as the error value
`CompressError.emptyInputError`.
-/

namespace Coad

/-- One interval-data sample `(category_id, time_index, value)` as consumed
by `compress_interval` (`row[0]`, `row[1]`, `row[2]` in the source). -/
structure Row where
  cat : Nat
  intid : Nat
  val : Int
deriving DecidableEq, Repr

/-- One output run `[category_id, start_index, end_index, value]` as produced
by `compress_interval`. -/
structure Run where
  cat : Nat
  start : Nat
  stop : Nat
  val : Int
deriving DecidableEq, Repr

/-- Failure of `interval_data.pop(0)` on an empty list, named
`EmptyInputError` by the specification. -/
inductive CompressError where
  | emptyInputError
deriving DecidableEq, Repr

/-- State of the scan loop of `compress_interval`: `final_data` is kept as
`done ++ [last]`, so that the source's in-place update `final_data[-1][2] = last_intid`
becomes an update of the `last` component. -/
structure ScanState where
  done : List Run
  last : Run
  last_value : Int
  last_intid : Nat

/-- Body of the `for row in interval_data:` loop of `compress_interval`:
on a value change, close the current run at `last_intid` and open a new
one at `row`; in both cases `last_intid` becomes `row[1]`. -/
def scanStep (st : ScanState) (row : Row) : ScanState :=
  if row.val ≠ st.last_value then
    { done := st.done ++ [{ st.last with stop := st.last_intid }],
      last := { cat := row.cat, start := row.intid, stop := row.intid, val := row.val },
      last_value := row.val,
      last_intid := row.intid }
  else
    { st with last_intid := row.intid }

/-- Close the open run with the current `last_intid`
(the source's trailing `final_data[-1][2] = last_intid`) and return the
whole run list. -/
def finish (st : ScanState) : List Run :=
  st.done ++ [{ st.last with stop := st.last_intid }]

/-- Embedding of `compress_interval` (src/coad/compress_interval.pyx).
The result pairs the returned run list with the final state of the
caller's `interval_data` list (its tail, after `pop(0)`). -/
def compress_interval (interval_data : List Row) :
    Except CompressError (List Run × List Row) :=
  match interval_data with
  | [] => .error .emptyInputError
  | row :: rest =>
      let st0 : ScanState :=
        { done := [],
          last := { cat := row.cat, start := 1, stop := row.intid, val := row.val },
          last_value := row.val,
          last_intid := row.intid }
      .ok (finish (rest.foldl scanStep st0), rest)

/-- Closed form of the scan: the run list produced when the open run has
category `c`, start `s`, value `v`, and the previously seen time index is
`li`.  A row whose value differs from `v` closes the open run at `li` and
opens a new one; a row with the same value only advances `li`. -/
def runsFrom (c s li : Nat) (v : Int) : List Row → List Run
  | [] => [⟨c, s, li, v⟩]
  | r :: rs =>
      if r.val ≠ v then ⟨c, s, li, v⟩ :: runsFrom r.cat r.intid r.intid r.val rs
      else runsFrom c s r.intid v rs

/-- The fold over `scanStep` computes `runsFrom`. -/
theorem finish_foldl (rs : List Row) :
    ∀ (done : List Run) (c s stp li : Nat) (v : Int),
      finish (rs.foldl scanStep ⟨done, ⟨c, s, stp, v⟩, v, li⟩) =
        done ++ runsFrom c s li v rs := by
  induction rs with
  | nil => intro done c s stp li v; simp [finish, runsFrom]
  | cons r rs ih =>
      intro done c s stp li v
      by_cases h : r.val = v
      · simp only [List.foldl_cons, scanStep, h, ne_eq, not_true_eq_false, if_false,
          runsFrom]
        simpa [h] using ih done c s stp r.intid v
      · simp only [List.foldl_cons, scanStep, ne_eq, h, not_false_iff, if_true, runsFrom]
        rw [ih]
        simp [h]

/-- Evaluation of `compress_interval` on a non-empty list. -/
theorem compress_interval_cons (r : Row) (rs : List Row) :
    compress_interval (r :: rs) =
      .ok (runsFrom r.cat 1 r.intid r.val rs, rs) := by
  simp [compress_interval, finish_foldl]

/-- Prepend a sample of category `c`, time index `s` and value `v` to a
segmentation: when the first run shares the value `v`, the sample joins
that run, which then starts at `s` with category `c`; otherwise the
sample forms a run of its own, closed at `li`. -/
def consRun (c s li : Nat) (v : Int) : List Run → List Run
  | [] => [⟨c, s, li, v⟩]
  | run :: runs =>
      if run.val = v then ⟨c, s, run.stop, v⟩ :: runs
      else ⟨c, s, li, v⟩ :: run :: runs

/-- Reference segmentation following the specification's words: each run is
a maximal contiguous range of consecutive samples with equal value; a run
records the category and time index of its first sample as `cat` and
`start`, the time index of its last sample as `stop`, and the shared
value as `val`. -/
def specRuns : List Row → List Run
  | [] => []
  | r :: rs => consRun r.cat r.intid r.intid r.val (specRuns rs)

/-- Replace the start index of the first run, leaving every other field and
every other run unchanged. -/
def setHeadStart (n : Nat) : List Run → List Run
  | [] => []
  | run :: runs => { run with start := n } :: runs

/-- The first run of `consRun c s li v l` starts at `s` with category `c`
and value `v`. -/
theorem consRun_head (c s li : Nat) (v : Int) (l : List Run) :
    ∃ stp runs, consRun c s li v l = ⟨c, s, stp, v⟩ :: runs := by
  cases l with
  | nil => exact ⟨li, [], rfl⟩
  | cons run runs =>
      by_cases hv : run.val = v
      · exact ⟨run.stop, runs, by simp [consRun, hv]⟩
      · exact ⟨li, run :: runs, by simp [consRun, hv]⟩

/-- Absorbing a sample with the value of the open run only moves the closing
index forward. -/
theorem consRun_absorb (c s li : Nat) (v : Int) (x : Row) (l : List Run)
    (h : x.val = v) :
    consRun c s x.intid v l = consRun c s li v (consRun x.cat x.intid x.intid x.val l) := by
  cases l with
  | nil => simp [consRun, h]
  | cons run runs =>
      by_cases hv : run.val = x.val
      · simp [consRun, hv, h ▸ hv, h]
      · have hv2 : ¬ run.val = v := fun hh => hv (hh.trans h.symm)
        simp [consRun, hv, hv2, h]

/-- The scan's closed form computes the reference segmentation extended by
the still-open run `⟨c, s, _, v⟩` closed at `li`. -/
theorem runsFrom_eq_consRun (rs : List Row) :
    ∀ (c s li : Nat) (v : Int),
      runsFrom c s li v rs = consRun c s li v (specRuns rs) := by
  induction rs with
  | nil => intro c s li v; simp [runsFrom, specRuns, consRun]
  | cons x xs ih =>
      intro c s li v
      by_cases h : x.val = v
      · rw [show runsFrom c s li v (x :: xs) = runsFrom c s x.intid v xs by
          simp [runsFrom, h]]
        rw [ih c s x.intid v, specRuns, consRun_absorb c s li v x _ h]
      · rw [show runsFrom c s li v (x :: xs) =
            ⟨c, s, li, v⟩ :: runsFrom x.cat x.intid x.intid x.val xs by
          simp [runsFrom, h]]
        rw [ih x.cat x.intid x.intid x.val, specRuns]
        obtain ⟨stp, runs, hx⟩ := consRun_head x.cat x.intid x.intid x.val (specRuns xs)
        rw [hx]
        have hv : ¬ (⟨x.cat, x.intid, stp, x.val⟩ : Run).val = v := h
        simp [consRun, hv]

/-- Changing the start index recorded while a run is open changes only the
first run's start field of the final segmentation. -/
theorem setHeadStart_consRun (n c s li : Nat) (v : Int) (l : List Run) :
    setHeadStart n (consRun c s li v l) = consRun c n li v l := by
  cases l with
  | nil => rfl
  | cons run runs =>
      by_cases hv : run.val = v
      · simp [consRun, hv, setHeadStart]
      · simp [consRun, hv, setHeadStart]

/-- Main characterisation of `compress_interval`: on a non-empty input it
returns the reference segmentation of the input, except that the first
run's start index is replaced by the constant 1, together with the tail
of the input (the caller's list after `pop(0)`). -/
theorem compress_interval_spec (r : Row) (rs : List Row) :
    compress_interval (r :: rs) =
      .ok (setHeadStart 1 (specRuns (r :: rs)), rs) := by
  rw [compress_interval_cons, runsFrom_eq_consRun, specRuns,
    setHeadStart_consRun]

/-- Replacing the first run's start index preserves the values of the runs. -/
theorem setHeadStart_map_val (n : Nat) (l : List Run) :
    (setHeadStart n l).map Run.val = l.map Run.val := by
  cases l <;> rfl

/-- Replacing the first run's start index preserves the end indices of the runs. -/
theorem setHeadStart_map_stop (n : Nat) (l : List Run) :
    (setHeadStart n l).map Run.stop = l.map Run.stop := by
  cases l <;> rfl

/-- Replacing the first run's start index preserves the categories of the runs. -/
theorem setHeadStart_map_cat (n : Nat) (l : List Run) :
    (setHeadStart n l).map Run.cat = l.map Run.cat := by
  cases l <;> rfl

/-- Replacing the first run's start index preserves the number of runs. -/
theorem setHeadStart_length (n : Nat) (l : List Run) :
    (setHeadStart n l).length = l.length := by
  cases l <;> rfl

/-- Replacing the first run's start index preserves the start indices of all
later runs. -/
theorem setHeadStart_map_start_tail (n : Nat) (l : List Run) :
    ((setHeadStart n l).map Run.start).tail = (l.map Run.start).tail := by
  cases l <;> rfl

/-- Replacing the first run's start index preserves the last run's end index. -/
theorem setHeadStart_getLast_stop (n : Nat) (l : List Run) :
    ((setHeadStart n l).getLast?).map Run.stop = (l.getLast?).map Run.stop := by
  cases l with
  | nil => rfl
  | cons a as =>
      cases as with
      | nil => rfl
      | cons b bs => simp [setHeadStart, List.getLast?_cons_cons]

/-- Prepending a sample to a non-empty segmentation does not change the last
run's end index. -/
theorem consRun_getLast_stop (c s li : Nat) (v : Int) (run : Run) (runs : List Run) :
    ((consRun c s li v (run :: runs)).getLast?).map Run.stop =
      ((run :: runs).getLast?).map Run.stop := by
  by_cases hv : run.val = v
  · cases runs with
    | nil => simp [consRun, hv]
    | cons b bs => simp [consRun, hv, List.getLast?_cons_cons]
  · simp [consRun, hv, List.getLast?_cons_cons]

/-- The last run of the reference segmentation ends at the time index of the
last input sample. -/
theorem specRuns_getLast_stop (l : List Row) :
    ((specRuns l).getLast?).map Run.stop = (l.getLast?).map Row.intid := by
  induction l with
  | nil => rfl
  | cons r rs ih =>
      cases rs with
      | nil => rfl
      | cons x xs =>
          obtain ⟨stp, runs, hx⟩ := consRun_head x.cat x.intid x.intid x.val (specRuns xs)
          rw [specRuns, show specRuns (x :: xs) = consRun x.cat x.intid x.intid x.val (specRuns xs) from rfl,
            hx, consRun_getLast_stop, ← hx,
            show consRun x.cat x.intid x.intid x.val (specRuns xs) = specRuns (x :: xs) from rfl,
            ih, List.getLast?_cons_cons]

/-- Interval data with no two consecutive samples of equal value. -/
def noRepeats : List Row → Bool
  | a :: b :: l => a.val != b.val && noRepeats (b :: l)
  | _ => true

/-- When no sample of `rs` repeats the value of its predecessor and the head
of `rs` differs from the open run's value, the scan emits one run per
sample plus the open run. -/
theorem runsFrom_length_noRepeats (rs : List Row) :
    ∀ (c s li : Nat) (v : Int),
      (∀ x, rs.head? = some x → x.val ≠ v) → noRepeats rs = true →
      (runsFrom c s li v rs).length = rs.length + 1 := by
  induction rs with
  | nil => intro c s li v _ _; simp [runsFrom]
  | cons x xs ih =>
      intro c s li v hhead hnr
      have hv : x.val ≠ v := hhead x rfl
      rw [show runsFrom c s li v (x :: xs) =
          ⟨c, s, li, v⟩ :: runsFrom x.cat x.intid x.intid x.val xs by
        simp [runsFrom, hv]]
      have hxs : (runsFrom x.cat x.intid x.intid x.val xs).length = xs.length + 1 := by
        apply ih
        · intro y hy
          cases xs with
          | nil => simp at hy
          | cons y2 ys =>
              simp only [List.head?_cons, Option.some.injEq] at hy
              subst hy
              have := hnr
              simp only [noRepeats, Bool.and_eq_true, bne_iff_ne, ne_eq] at this
              exact fun hh => this.1 hh.symm
        · cases xs with
          | nil => rfl
          | cons y2 ys =>
              have := hnr
              simp only [noRepeats, Bool.and_eq_true] at this
              exact this.2
      simp [hxs]

/-- Claim C1, counterexample.  On the one-sample input `[(0,0,5)]` the run
returned by `compress_interval` starts at the constant 1, not at the time
index 0 of the first (and only) sample of the run, so it is not the case
that each run's start index equals the time index of the first input
sample of the run. -/
theorem c1_counterexample :
    compress_interval [⟨0, 0, 5⟩] = .ok ([⟨0, 1, 0, 5⟩], []) ∧
      (⟨0, 1, 0, 5⟩ : Run).start ≠ (⟨0, 0, 5⟩ : Row).intid :=
  ⟨rfl, by decide⟩

/-- Claim C1, amended: for every non-empty input, `compress_interval`
returns the runs of the reference segmentation `specRuns` — each run a
maximal contiguous range of consecutive samples with equal value, ending
at the time index of its last sample and starting at the time index of
its first sample — except that the first run's start index is the
constant 1 instead of the first sample's time index. -/
theorem c1_runs_are_maximal_ranges (r : Row) (rs : List Row) :
    compress_interval (r :: rs) =
      .ok (setHeadStart 1 (specRuns (r :: rs)), rs) :=
  compress_interval_spec r rs

/-- Claim C2, counterexample.  On the spec's example input
`[(0,0,5),(0,1,5),(0,2,7),(0,3,7),(0,4,7)]` the code returns
`[(0,1,1,5),(0,2,4,7)]`, which differs from the claimed output
`[(0,0,1,5),(0,2,4,7)]` in the first run's start index. -/
theorem c2_counterexample :
    compress_interval [⟨0, 0, 5⟩, ⟨0, 1, 5⟩, ⟨0, 2, 7⟩, ⟨0, 3, 7⟩, ⟨0, 4, 7⟩] =
      .ok ([⟨0, 1, 1, 5⟩, ⟨0, 2, 4, 7⟩],
        [⟨0, 1, 5⟩, ⟨0, 2, 7⟩, ⟨0, 3, 7⟩, ⟨0, 4, 7⟩]) ∧
      ([⟨0, 1, 1, 5⟩, ⟨0, 2, 4, 7⟩] : List Run) ≠ [⟨0, 0, 1, 5⟩, ⟨0, 2, 4, 7⟩] :=
  ⟨rfl, by decide⟩

/-- Claim C2, amended: for the input
`[(0,0,5),(0,1,5),(0,2,7),(0,3,7),(0,4,7)]`, `compress_interval` returns
exactly `[(0,1,1,5),(0,2,4,7)]` (the first run's start index is the
constant 1, not 0). -/
theorem c2_example_output :
    compress_interval [⟨0, 0, 5⟩, ⟨0, 1, 5⟩, ⟨0, 2, 7⟩, ⟨0, 3, 7⟩, ⟨0, 4, 7⟩] =
      .ok ([⟨0, 1, 1, 5⟩, ⟨0, 2, 4, 7⟩],
        [⟨0, 1, 5⟩, ⟨0, 2, 7⟩, ⟨0, 3, 7⟩, ⟨0, 4, 7⟩]) := rfl

/-- Claim C3: on the empty input sequence `compress_interval` fails with
`EmptyInputError` (the failure of `interval_data.pop(0)` on an empty
list). -/
theorem c3_empty_input_fails :
    compress_interval [] = .error .emptyInputError := rfl

/-- Claim C4, counterexample.  `compress_interval` is not pure: after the
call on `[(0,3,7)]` the caller's list is empty, so the input sequence is
not unchanged. -/
theorem c4_counterexample :
    compress_interval [⟨0, 3, 7⟩] = .ok ([⟨0, 1, 3, 7⟩], []) ∧
      ([] : List Row) ≠ [⟨0, 3, 7⟩] :=
  ⟨rfl, by decide⟩

/-- Claim C4, amended: `compress_interval` mutates its argument — whenever
a call returns, the caller's input sequence equals the tail of the
original sequence (the first element has been removed), hence differs
from the original. -/
theorem c4_mutates_argument (l : List Row) (out : List Run) (rest : List Row)
    (h : compress_interval l = .ok (out, rest)) :
    rest = l.tail ∧ rest ≠ l := by
  cases l with
  | nil => simp [compress_interval] at h
  | cons r rs =>
      rw [compress_interval_cons, Except.ok.injEq, Prod.mk.injEq] at h
      obtain ⟨-, h3⟩ := h
      subst h3
      exact ⟨rfl, fun hh => List.cons_ne_self r rs hh.symm⟩

/-- Witness for the amended claim C4 at the concrete input `[(0,3,7)]`. -/
theorem c4_mutates_argument_witness :
    ([] : List Row) = [(⟨0, 3, 7⟩ : Row)].tail ∧ ([] : List Row) ≠ [⟨0, 3, 7⟩] :=
  c4_mutates_argument [⟨0, 3, 7⟩] [⟨0, 1, 3, 7⟩] [] rfl

/-- Claim C5: the single forward scan of `compress_interval` opens a new run
exactly at each sample whose value differs from the previous one (the
output has exactly the runs of the reference segmentation, with the same
values), sets each run's end index to the time index of the last
consecutive sample sharing the run's value (the end indices agree with
the reference segmentation), and closes the final run after the scan with
end index equal to the time index of the last input sample. -/
theorem c5_scan_structure (r : Row) (rs : List Row) :
    ∃ out, compress_interval (r :: rs) = .ok (out, rs) ∧
      out.length = (specRuns (r :: rs)).length ∧
      out.map Run.val = (specRuns (r :: rs)).map Run.val ∧
      out.map Run.stop = (specRuns (r :: rs)).map Run.stop ∧
      (out.getLast?).map Run.stop = ((r :: rs).getLast?).map Row.intid := by
  refine ⟨setHeadStart 1 (specRuns (r :: rs)), compress_interval_spec r rs,
    setHeadStart_length 1 _, setHeadStart_map_val 1 _, setHeadStart_map_stop 1 _, ?_⟩
  rw [setHeadStart_getLast_stop, specRuns_getLast_stop]

/-- Claim C6: on a non-empty input in which no two consecutive samples have
equal value, `compress_interval` returns exactly as many runs as there
are input samples. -/
theorem c6_no_repeats_length (r : Row) (rs : List Row)
    (h : noRepeats (r :: rs) = true) :
    ∃ out, compress_interval (r :: rs) = .ok (out, rs) ∧
      out.length = (r :: rs).length := by
  refine ⟨runsFrom r.cat 1 r.intid r.val rs, compress_interval_cons r rs, ?_⟩
  rw [runsFrom_length_noRepeats]
  · simp
  · intro x hx
    cases rs with
    | nil => simp at hx
    | cons y ys =>
        simp only [List.head?_cons, Option.some.injEq] at hx
        subst hx
        simp only [noRepeats, Bool.and_eq_true, bne_iff_ne, ne_eq] at h
        exact fun hh => h.1 hh.symm
  · cases rs with
    | nil => rfl
    | cons y ys =>
        simp only [noRepeats, Bool.and_eq_true] at h
        exact h.2

/-- Witness for claim C6 at the concrete input `[(0,0,1),(0,1,2)]`. -/
theorem c6_no_repeats_length_witness :
    noRepeats [⟨0, 0, 1⟩, ⟨0, 1, 2⟩] = true ∧
      ∃ out, compress_interval [⟨0, 0, 1⟩, ⟨0, 1, 2⟩] = .ok (out, [⟨0, 1, 2⟩]) ∧
        out.length = ([⟨0, 0, 1⟩, ⟨0, 1, 2⟩] : List Row).length :=
  ⟨by decide, c6_no_repeats_length ⟨0, 0, 1⟩ [⟨0, 1, 2⟩] (by decide)⟩

/-- Claim C7, counterexample.  On the input `[(0,1,5),(1,2,5)]` — two
samples of equal value in different categories — the code returns the
single run `(0,1,2,5)`, which spans both samples although the second one
belongs to category 1, so a change of category does not end a run and a
run's category does not match every sample it covers. -/
theorem c7_counterexample :
    compress_interval [⟨0, 1, 5⟩, ⟨1, 2, 5⟩] =
      .ok ([⟨0, 1, 2, 5⟩], [⟨1, 2, 5⟩]) ∧
    ¬ (∀ run ∈ [(⟨0, 1, 2, 5⟩ : Run)], ∀ row ∈ [(⟨0, 1, 5⟩ : Row), ⟨1, 2, 5⟩],
        run.start ≤ row.intid → row.intid ≤ run.stop → row.cat = run.cat) :=
  ⟨rfl, by decide⟩

/-- Claim C7, amended: the category recorded on each output run is the
category of the sample that opened the run (the categories agree with the
reference segmentation, whose runs record the category of their first
sample); run boundaries are determined by value changes alone, so a run
may cover samples of other categories when their values equal the run's
value. -/
theorem c7_run_category_from_opening_sample (r : Row) (rs : List Row) :
    ∃ out, compress_interval (r :: rs) = .ok (out, rs) ∧
      out.map Run.cat = (specRuns (r :: rs)).map Run.cat :=
  ⟨setHeadStart 1 (specRuns (r :: rs)), compress_interval_spec r rs,
    setHeadStart_map_cat 1 _⟩

/-- Claim C9: for every non-empty input, the first run returned by
`compress_interval` starts at the constant 1 — regardless of the time
index of the first input sample — while every later run starts where the
reference segmentation starts it, namely at the time index of the sample
that opened it. -/
theorem c9_first_start_is_one (r : Row) (rs : List Row) :
    ∃ out, compress_interval (r :: rs) = .ok (out, rs) ∧
      (out.head?).map Run.start = some 1 ∧
      (out.map Run.start).tail = ((specRuns (r :: rs)).map Run.start).tail := by
  refine ⟨setHeadStart 1 (specRuns (r :: rs)), compress_interval_spec r rs, ?_,
    setHeadStart_map_start_tail 1 _⟩
  obtain ⟨stp, runs, hx⟩ := consRun_head r.cat r.intid r.intid r.val (specRuns rs)
  rw [show specRuns (r :: rs) = consRun r.cat r.intid r.intid r.val (specRuns rs) from rfl,
    hx]
  rfl

/-- Claim C10: `compress_interval` removes exactly the first element of the
caller's list — after the call on any non-empty input `r :: rs`, the
caller's list is `rs`, the remaining elements unchanged and in their
original order. -/
theorem c10_argument_loses_head (r : Row) (rs : List Row) :
    ∃ out, compress_interval (r :: rs) = .ok (out, rs) :=
  ⟨runsFrom r.cat 1 r.intid r.val rs, compress_interval_cons r rs⟩

end Coad

/-
Part 2 models the Document↔Store mapper of plexos_database.py.  The
functions `load` and `save` themselves are not part of the available
sources (only their docstrings appear in the repository's README), so the
relational mapping is modelled from the specification: a document holds
name-keyed Class, Object, AttributeValue and Membership sections; `load`
assigns integer ids positionally and resolves every name reference to an
id, failing on a dangling reference; `save` walks the rows in stable
store order and emits each row back under the names its ids resolve to,
never persisting a row it cannot map back.
-/

namespace PlexosDb

/-- Modelled from the spec: a Class row of the relational store, with its
store-assigned integer id and name. -/
structure ClassRow where
  class_id : Nat
  name : String
deriving DecidableEq, Repr

/-- Modelled from the spec: an Object row, belonging to exactly one Class
through `class_id`. -/
structure ObjectRow where
  object_id : Nat
  class_id : Nat
  name : String
deriving DecidableEq, Repr

/-- Modelled from the spec: an AttributeValue row, the value of one named
attribute on one Object. -/
structure DataRow where
  data_id : Nat
  object_id : Nat
  att : String
  value : String
deriving DecidableEq, Repr

/-- Modelled from the spec: a Membership row, a directed parent→child
relation between two Objects carrying a collection label. -/
structure MembershipRow where
  membership_id : Nat
  parent_object_id : Nat
  child_object_id : Nat
  collection : String
deriving DecidableEq, Repr

/-- Modelled from the spec: the relational store populated by `load`,
holding all Class, Object, AttributeValue and Membership rows. -/
structure Store where
  classRows : List ClassRow
  objectRows : List ObjectRow
  dataRows : List DataRow
  membershipRows : List MembershipRow
deriving DecidableEq, Repr

/-- Modelled from the spec: the tree document, with ordered sections for
classes (by name), objects (class name, object name), attribute values
((class, object), attribute name, textual value) and memberships
(parent, child, collection). -/
structure PDoc where
  classes : List String
  objects : List (String × String)
  attvals : List ((String × String) × String × String)
  members : List ((String × String) × (String × String) × String)
deriving DecidableEq, Repr

/-- Modelled from the spec: `load` fails with a LoadError when the document
references a non-existent Class or Object. -/
inductive LoadError where
  | danglingReference
deriving DecidableEq, Repr

/-- Id of the first Class row with the given name. -/
def findClassId : List ClassRow → String → Option Nat
  | [], _ => none
  | r :: rest, c => if r.name = c then some r.class_id else findClassId rest c

/-- Name of the first Class row with the given id. -/
def findClassName : List ClassRow → Nat → Option String
  | [], _ => none
  | r :: rest, i => if r.class_id = i then some r.name else findClassName rest i

/-- Id of the first Object row with the given class id and name. -/
def findObjectIdIn : List ObjectRow → Nat → String → Option Nat
  | [], _, _ => none
  | r :: rest, cid, o =>
      if r.class_id = cid ∧ r.name = o then some r.object_id
      else findObjectIdIn rest cid o

/-- First Object row with the given id. -/
def findObjectRow : List ObjectRow → Nat → Option ObjectRow
  | [], _ => none
  | r :: rest, i => if r.object_id = i then some r else findObjectRow rest i

/-- Resolve a (class name, object name) pair to an object id. -/
def findObjectId (crows : List ClassRow) (orows : List ObjectRow)
    (p : String × String) : Option Nat :=
  match findClassId crows p.1 with
  | none => none
  | some cid => findObjectIdIn orows cid p.2

/-- Resolve an object id back to its (class name, object name) pair. -/
def objectPath (crows : List ClassRow) (orows : List ObjectRow) (i : Nat) :
    Option (String × String) :=
  match findObjectRow orows i with
  | none => none
  | some row =>
      match findClassName crows row.class_id with
      | none => none
      | some c => some (c, row.name)

/-- Modelled from the spec: `load` assigns Class ids positionally, starting
from `n`. -/
def assignClassRows (n : Nat) : List String → List ClassRow
  | [] => []
  | c :: cs => ⟨n, c⟩ :: assignClassRows (n + 1) cs

/-- Modelled from the spec: `load` walks the Object section, resolving each
object's class name and assigning object ids positionally from `n`;
a reference to a non-existent Class fails the load. -/
def loadObjects (crows : List ClassRow) (n : Nat) :
    List (String × String) → Except LoadError (List ObjectRow)
  | [] => .ok []
  | p :: rest =>
      match findClassId crows p.1 with
      | none => .error .danglingReference
      | some cid =>
          match loadObjects crows (n + 1) rest with
          | .error e => .error e
          | .ok rs => .ok (⟨n, cid, p.2⟩ :: rs)

/-- Modelled from the spec: `load` walks the AttributeValue section,
resolving each owning object; a reference to a non-existent Object fails
the load. -/
def loadData (crows : List ClassRow) (orows : List ObjectRow) (n : Nat) :
    List ((String × String) × String × String) → Except LoadError (List DataRow)
  | [] => .ok []
  | (p, a, v) :: rest =>
      match findObjectId crows orows p with
      | none => .error .danglingReference
      | some oid =>
          match loadData crows orows (n + 1) rest with
          | .error e => .error e
          | .ok rs => .ok (⟨n, oid, a, v⟩ :: rs)

/-- Modelled from the spec: `load` walks the Membership section, resolving
parent and child objects; a dangling reference fails the load. -/
def loadMembers (crows : List ClassRow) (orows : List ObjectRow) (n : Nat) :
    List ((String × String) × (String × String) × String) →
      Except LoadError (List MembershipRow)
  | [] => .ok []
  | (p, q, col) :: rest =>
      match findObjectId crows orows p, findObjectId crows orows q with
      | some pid, some qid =>
          match loadMembers crows orows (n + 1) rest with
          | .error e => .error e
          | .ok rs => .ok (⟨n, pid, qid, col⟩ :: rs)
      | _, _ => .error .danglingReference

/-- Modelled from the spec: `load` parses the document sections in order,
inserting one row per class, object, attribute value and membership, and
fails with a LoadError on any reference to a non-existent Class or
Object. -/
def load (doc : PDoc) : Except LoadError Store :=
  match loadObjects (assignClassRows 1 doc.classes) 1 doc.objects with
  | .error e => .error e
  | .ok orows =>
      match loadData (assignClassRows 1 doc.classes) orows 1 doc.attvals with
      | .error e => .error e
      | .ok drows =>
          match loadMembers (assignClassRows 1 doc.classes) orows 1 doc.members with
          | .error e => .error e
          | .ok mrows => .ok ⟨assignClassRows 1 doc.classes, orows, drows, mrows⟩

/-- Modelled from the spec: `save` emits the store's rows back as a
document in stable store order, resolving every id back to names and
never persisting a row whose references it cannot map back to a valid
tree position. -/
def save (s : Store) : PDoc :=
  { classes := s.classRows.map ClassRow.name,
    objects := s.objectRows.filterMap fun o =>
      (findClassName s.classRows o.class_id).map fun c => (c, o.name),
    attvals := s.dataRows.filterMap fun d =>
      (objectPath s.classRows s.objectRows d.object_id).map fun p => (p, d.att, d.value),
    members := s.membershipRows.filterMap fun m =>
      (objectPath s.classRows s.objectRows m.parent_object_id).bind fun p =>
        (objectPath s.classRows s.objectRows m.child_object_id).map fun q =>
          (p, q, m.collection) }

/-- Erasing the ids assigned to a class section gives the section back. -/
theorem assignClassRows_map_name (n : Nat) (cs : List String) :
    (assignClassRows n cs).map ClassRow.name = cs := by
  induction cs generalizing n with
  | nil => rfl
  | cons c cs ih => simp [assignClassRows, ih]

/-- Ids found among positionally assigned class rows are at least the
starting id. -/
theorem findClassId_ge (cs : List String) :
    ∀ (n : Nat) (c : String) (i : Nat),
      findClassId (assignClassRows n cs) c = some i → n ≤ i := by
  induction cs with
  | nil => intro n c i h; exact Option.noConfusion h
  | cons x xs ih =>
      intro n c i h
      simp only [assignClassRows, findClassId] at h
      by_cases hx : x = c
      · rw [if_pos hx] at h
        injection h with h2
        omega
      · rw [if_neg hx] at h
        have := ih (n + 1) c i h
        omega

/-- Looking a found class id back up returns the name it was found under:
positionally assigned ids are distinct, so the id resolves to the same
row. -/
theorem findClassId_inv (cs : List String) :
    ∀ (n : Nat) (c : String) (i : Nat),
      findClassId (assignClassRows n cs) c = some i →
      findClassName (assignClassRows n cs) i = some c := by
  induction cs with
  | nil => intro n c i h; exact Option.noConfusion h
  | cons x xs ih =>
      intro n c i h
      simp only [assignClassRows, findClassId] at h
      by_cases hx : x = c
      · rw [if_pos hx] at h
        injection h with h2
        simp only [assignClassRows, findClassName]
        rw [if_pos h2, hx]
      · rw [if_neg hx] at h
        have hge := findClassId_ge xs (n + 1) c i h
        simp only [assignClassRows, findClassName]
        rw [if_neg (by omega : ¬ n = i)]
        exact ih (n + 1) c i h

/-- Object rows whose ids ascend strictly from `n` on. -/
def AscObjIds : Nat → List ObjectRow → Prop
  | _, [] => True
  | n, r :: rs => n ≤ r.object_id ∧ AscObjIds (r.object_id + 1) rs

/-- Loading the object section assigns strictly ascending object ids. -/
theorem loadObjects_asc (objs : List (String × String)) :
    ∀ (crows : List ClassRow) (n : Nat) (orows : List ObjectRow),
      loadObjects crows n objs = .ok orows → AscObjIds n orows := by
  induction objs with
  | nil =>
      intro crows n orows h
      injection h with h2
      subst h2
      trivial
  | cons p rest ih =>
      intro crows n orows h
      simp only [loadObjects] at h
      cases hc : findClassId crows p.1 with
      | none => rw [hc] at h; exact Except.noConfusion h
      | some cid =>
          rw [hc] at h
          cases ho : loadObjects crows (n + 1) rest with
          | error e => rw [ho] at h; exact Except.noConfusion h
          | ok rs =>
              rw [ho] at h
              injection h with h2
              subst h2
              exact ⟨Nat.le_refl n, ih crows (n + 1) rs ho⟩

/-- Ids found among ascending object rows are at least the lower bound. -/
theorem findObjectIdIn_ge (orows : List ObjectRow) :
    ∀ (n cid : Nat) (o : String) (i : Nat),
      AscObjIds n orows → findObjectIdIn orows cid o = some i → n ≤ i := by
  induction orows with
  | nil => intro n cid o i _ h; exact Option.noConfusion h
  | cons r rs ih =>
      intro n cid o i hasc h
      obtain ⟨h1, h2⟩ := hasc
      simp only [findObjectIdIn] at h
      by_cases hm : r.class_id = cid ∧ r.name = o
      · rw [if_pos hm] at h
        injection h with hid
        omega
      · rw [if_neg hm] at h
        have := ih (r.object_id + 1) cid o i h2 h
        omega

/-- Looking a found object id back up returns the row it was found in:
ascending ids are distinct, so the id resolves to the same row. -/
theorem findObjectIdIn_inv (orows : List ObjectRow) :
    ∀ (n cid : Nat) (o : String) (i : Nat),
      AscObjIds n orows → findObjectIdIn orows cid o = some i →
      findObjectRow orows i = some ⟨i, cid, o⟩ := by
  induction orows with
  | nil => intro n cid o i _ h; exact Option.noConfusion h
  | cons r rs ih =>
      intro n cid o i hasc h
      obtain ⟨h1, h2⟩ := hasc
      simp only [findObjectIdIn] at h
      by_cases hm : r.class_id = cid ∧ r.name = o
      · rw [if_pos hm] at h
        obtain ⟨hm1, hm2⟩ := hm
        injection h with hid
        simp only [findObjectRow]
        rw [if_pos hid, ← hid, ← hm1, ← hm2]
      · rw [if_neg hm] at h
        have hge := findObjectIdIn_ge rs (r.object_id + 1) cid o i h2 h
        simp only [findObjectRow]
        rw [if_neg (by omega : ¬ r.object_id = i)]
        exact ih (r.object_id + 1) cid o i h2 h

/-- Resolving a (class, object) name pair to an id and back returns the
same pair, for class rows assigned positionally and object rows with
ascending ids. -/
theorem findObjectId_inv (cls : List String) (orows : List ObjectRow)
    (p : String × String) (i : Nat)
    (hasc : AscObjIds 1 orows)
    (h : findObjectId (assignClassRows 1 cls) orows p = some i) :
    objectPath (assignClassRows 1 cls) orows i = some p := by
  simp only [findObjectId] at h
  cases hc : findClassId (assignClassRows 1 cls) p.1 with
  | none => rw [hc] at h; exact Option.noConfusion h
  | some cid =>
      rw [hc] at h
      have hrow := findObjectIdIn_inv orows 1 cid p.2 i hasc h
      have hcn := findClassId_inv cls 1 p.1 cid hc
      simp only [objectPath, hrow, hcn]

/-- Saving the object rows produced by a successful load emits the original
object section. -/
theorem loadObjects_save (cls : List String) (objs : List (String × String)) :
    ∀ (n : Nat) (orows : List ObjectRow),
      loadObjects (assignClassRows 1 cls) n objs = .ok orows →
      (orows.filterMap fun o =>
        (findClassName (assignClassRows 1 cls) o.class_id).map fun c => (c, o.name)) =
        objs := by
  induction objs with
  | nil =>
      intro n orows h
      injection h with h2
      subst h2
      rfl
  | cons p rest ih =>
      intro n orows h
      simp only [loadObjects] at h
      cases hc : findClassId (assignClassRows 1 cls) p.1 with
      | none => rw [hc] at h; exact Except.noConfusion h
      | some cid =>
          rw [hc] at h
          cases ho : loadObjects (assignClassRows 1 cls) (n + 1) rest with
          | error e => rw [ho] at h; exact Except.noConfusion h
          | ok rs =>
              rw [ho] at h
              injection h with h2
              subst h2
              have hcn := findClassId_inv cls 1 p.1 cid hc
              simp only [List.filterMap_cons, hcn, Option.map_some']
              rw [ih (n + 1) rs ho]

/-- Saving the attribute-value rows produced by a successful load emits the
original attribute-value section. -/
theorem loadData_save (cls : List String) (orows : List ObjectRow)
    (hasc : AscObjIds 1 orows)
    (avs : List ((String × String) × String × String)) :
    ∀ (n : Nat) (drows : List DataRow),
      loadData (assignClassRows 1 cls) orows n avs = .ok drows →
      (drows.filterMap fun d =>
        (objectPath (assignClassRows 1 cls) orows d.object_id).map fun p =>
          (p, d.att, d.value)) = avs := by
  induction avs with
  | nil =>
      intro n drows h
      injection h with h2
      subst h2
      rfl
  | cons av rest ih =>
      intro n drows h
      obtain ⟨p, a, v⟩ := av
      simp only [loadData] at h
      cases hc : findObjectId (assignClassRows 1 cls) orows p with
      | none => rw [hc] at h; exact Except.noConfusion h
      | some oid =>
          rw [hc] at h
          cases ho : loadData (assignClassRows 1 cls) orows (n + 1) rest with
          | error e => rw [ho] at h; exact Except.noConfusion h
          | ok rs =>
              rw [ho] at h
              injection h with h2
              subst h2
              have hop := findObjectId_inv cls orows p oid hasc hc
              simp only [List.filterMap_cons, hop, Option.map_some']
              rw [ih (n + 1) rs ho]

/-- Saving the membership rows produced by a successful load emits the
original membership section. -/
theorem loadMembers_save (cls : List String) (orows : List ObjectRow)
    (hasc : AscObjIds 1 orows)
    (mvs : List ((String × String) × (String × String) × String)) :
    ∀ (n : Nat) (mrows : List MembershipRow),
      loadMembers (assignClassRows 1 cls) orows n mvs = .ok mrows →
      (mrows.filterMap fun m =>
        (objectPath (assignClassRows 1 cls) orows m.parent_object_id).bind fun p =>
          (objectPath (assignClassRows 1 cls) orows m.child_object_id).map fun q =>
            (p, q, m.collection)) = mvs := by
  induction mvs with
  | nil =>
      intro n mrows h
      injection h with h2
      subst h2
      rfl
  | cons mv rest ih =>
      intro n mrows h
      obtain ⟨p, q, col⟩ := mv
      simp only [loadMembers] at h
      cases hp : findObjectId (assignClassRows 1 cls) orows p with
      | none => rw [hp] at h; exact Except.noConfusion h
      | some pid =>
          cases hq : findObjectId (assignClassRows 1 cls) orows q with
          | none => rw [hp, hq] at h; exact Except.noConfusion h
          | some qid =>
              rw [hp, hq] at h
              cases ho : loadMembers (assignClassRows 1 cls) orows (n + 1) rest with
              | error e => rw [ho] at h; exact Except.noConfusion h
              | ok rs =>
                  rw [ho] at h
                  injection h with h2
                  subst h2
                  have hpp := findObjectId_inv cls orows p pid hasc hp
                  have hqq := findObjectId_inv cls orows q qid hasc hq
                  simp only [List.filterMap_cons, hpp, hqq, Option.some_bind,
                    Option.map_some']
                  rw [ih (n + 1) rs ho]

/-- Saving a store produced by a successful load reproduces the loaded
document exactly. -/
theorem save_load (doc : PDoc) (s : Store) (h : load doc = .ok s) :
    save s = doc := by
  obtain ⟨dcl, dobj, dav, dmem⟩ := doc
  simp only [load] at h
  cases ho : loadObjects (assignClassRows 1 dcl) 1 dobj with
  | error e => simp only [ho] at h; exact Except.noConfusion h
  | ok orows =>
      simp only [ho] at h
      cases hd : loadData (assignClassRows 1 dcl) orows 1 dav with
      | error e => simp only [hd] at h; exact Except.noConfusion h
      | ok drows =>
          simp only [hd] at h
          cases hm : loadMembers (assignClassRows 1 dcl) orows 1 dmem with
          | error e => simp only [hm] at h; exact Except.noConfusion h
          | ok mrows =>
              simp only [hm] at h
              injection h with h2
              subst h2
              have hasc := loadObjects_asc dobj (assignClassRows 1 dcl) 1 orows ho
              simp only [save, PDoc.mk.injEq]
              exact ⟨assignClassRows_map_name 1 dcl,
                loadObjects_save dcl dobj 1 orows ho,
                loadData_save dcl orows hasc dav 1 drows hd,
                loadMembers_save dcl orows hasc dmem 1 mrows hm⟩

/-- Claim C8: for any Store produced by `load doc` with no subsequent
mutation, `save` followed by `load` again produces a Store with identical
row content.  In this model the reloaded store is literally the same
store — the same Class, Object, AttributeValue and Membership rows, ids
included — so in particular the row sets are equal up to id
renumbering. -/
theorem c8_load_save_roundtrip (doc : PDoc) (s : Store)
    (h : load doc = .ok s) :
    load (save s) = .ok s := by
  rw [save_load doc s h]
  exact h

/-- Witness for claim C8 on a concrete two-class document with one object
per class, one attribute value and one membership. -/
theorem c8_load_save_roundtrip_witness :
    load (save ⟨[⟨1, "M"⟩, ⟨2, "H"⟩], [⟨1, 1, "B"⟩, ⟨2, 2, "B"⟩],
        [⟨1, 1, "E", "1"⟩], [⟨1, 1, 2, "H"⟩]⟩) =
      .ok ⟨[⟨1, "M"⟩, ⟨2, "H"⟩], [⟨1, 1, "B"⟩, ⟨2, 2, "B"⟩],
        [⟨1, 1, "E", "1"⟩], [⟨1, 1, 2, "H"⟩]⟩ :=
  c8_load_save_roundtrip
    ⟨["M", "H"], [("M", "B"), ("H", "B")], [(("M", "B"), "E", "1")],
      [(("M", "B"), ("H", "B"), "H")]⟩ _ rfl

end PlexosDb
